import Mathlib

/-!
Verification of the corporate-intelligence graph evidence & classification
engine against its specification.  The repository's checked-in sources are the
React frontend (types, API clients and rendering components); the backend
engine functions (`classify`, `combine`, `findConnection`, `detectClusters`,
`assess`) are declared and consumed there but their bodies are not in the
tree, so those are modelled from the spec as indicated on each definition.
Pure helpers that do appear in the frontend sources (`formatValue`,
`canSearch`) are translated directly from the TypeScript.
-/

namespace CorpIntel

/-- Base filing signal level (frontend `SignalItem.signal_level`:
`'high' | 'medium' | 'low'`). -/
inductive SignalLevel
  | low
  | medium
  | high
deriving DecidableEq, Repr

/-- Combined signal level (frontend `SignalItem.combined_signal_level`:
`'critical' | 'high_bearish' | 'high' | 'medium' | 'low'`). -/
inductive CombinedLevel
  | low
  | medium
  | high
  | high_bearish
  | critical
deriving DecidableEq, Repr

/-- Insider net direction (frontend `InsiderContextData.net_direction`:
`'buying' | 'selling' | 'mixed' | 'none'`). -/
inductive NetDirection
  | buying
  | selling
  | mixed
  | none
deriving DecidableEq, Repr

/-- Modelled from the spec: the backend Filing Signal Classifier
`classify(filing) -> SignalLevel` (spec section 4.5) is not under `src/`;
only its output type and call sites appear in the frontend sources.
Ordered decision table over the filing's reported item numbers, first match
wins:
1. 1.01 present and (5.02 or 5.03 present) and 2.01 absent -> high;
2. 1.01 present alone (no 5.02/5.03, no 2.01) -> medium;
3. 2.01 present (with or without 5.01) -> low;
4. a single 5.02 or 5.03 with no other qualifying items -> low;
5. anything else -> low. -/
def classify (item_numbers : List String) : SignalLevel :=
  if item_numbers.contains "1.01"
      && (item_numbers.contains "5.02" || item_numbers.contains "5.03")
      && !(item_numbers.contains "2.01") then
    .high
  else if item_numbers.contains "1.01"
      && !(item_numbers.contains "5.02" || item_numbers.contains "5.03")
      && !(item_numbers.contains "2.01") then
    .medium
  else if item_numbers.contains "2.01" then
    .low
  else if item_numbers.contains "5.02" || item_numbers.contains "5.03" then
    .low
  else
    .low

/-- Embedding of a base level into the combined-level scale, used when the
combiner leaves the filing level unchanged. -/
def CombinedLevel.ofSignal : SignalLevel → CombinedLevel
  | .low => .low
  | .medium => .medium
  | .high => .high

/-- Modelled from the spec: the backend Signal Combiner
`combine(filingLevel, insiderContext) -> CombinedLevel` (spec section 4.7) is
not under `src/`; only the `combined_signal_level` field it produces appears
in the frontend sources.  critical when filingLevel = high and net_direction =
buying; high_bearish when filingLevel = high and net_direction = selling;
otherwise the combined level equals filingLevel unchanged. -/
def combine (filingLevel : SignalLevel) (net_direction : NetDirection) : CombinedLevel :=
  if filingLevel = .high && net_direction = .buying then
    .critical
  else if filingLevel = .high && net_direction = .selling then
    .high_bearish
  else
    .ofSignal filingLevel

/-- C1: the filing signal classifier is an ordered decision table over the
filing's set of reported item numbers with first match winning: 1.01 with
5.02/5.03 and no 2.01 is high; 1.01 with none of 5.02/5.03/2.01 is medium;
any set containing 2.01 is low; any set without 1.01 and 2.01 (in particular
a lone 5.02 or 5.03) is low; and the spec's five concrete examples evaluate
as stated. -/
theorem classify_decision_table :
    (∀ items : List String,
      items.contains "1.01" = true →
      (items.contains "5.02" = true ∨ items.contains "5.03" = true) →
      items.contains "2.01" = false →
      classify items = .high) ∧
    (∀ items : List String,
      items.contains "1.01" = true →
      items.contains "5.02" = false →
      items.contains "5.03" = false →
      items.contains "2.01" = false →
      classify items = .medium) ∧
    (∀ items : List String,
      items.contains "2.01" = true → classify items = .low) ∧
    (∀ items : List String,
      items.contains "1.01" = false →
      items.contains "2.01" = false →
      classify items = .low) ∧
    classify ["1.01", "5.03"] = .high ∧
    classify ["1.01"] = .medium ∧
    classify ["2.01"] = .low ∧
    classify ["2.01", "5.01"] = .low ∧
    classify ["5.02"] = .low := by
  refine ⟨?_, ?_, ?_, ?_, by decide, by decide, by decide, by decide, by decide⟩
  · intro items h101 h5x h201
    rcases h5x with h | h <;> simp_all [classify]
  · intro items h101 h502 h503 h201
    simp_all [classify]
  · intro items h201
    by_cases h101 : items.contains "1.01" = true <;>
      by_cases h502 : items.contains "5.02" = true <;>
        by_cases h503 : items.contains "5.03" = true <;>
          simp_all [classify]
  · intro items h101 h201
    simp_all [classify]

/-- C1 witness: concrete instantiation of the decision-table theorem. -/
theorem classify_decision_table_witness :
    classify ["1.01", "5.02", "9.01"] = .high :=
  classify_decision_table.1 ["1.01", "5.02", "9.01"] (by decide)
    (Or.inl (by decide)) (by decide)

/-- C2: the signal combiner is total and deterministic, returns critical
exactly on (high, buying), high_bearish exactly on (high, selling), and
otherwise leaves the filing level unchanged; in particular
combine medium buying = medium. -/
theorem combine_total_deterministic :
    (∀ (f : SignalLevel) (d : NetDirection), ∃! c : CombinedLevel, combine f d = c) ∧
    (∀ (f : SignalLevel) (d : NetDirection),
      combine f d = .critical ↔ (f = .high ∧ d = .buying)) ∧
    (∀ (f : SignalLevel) (d : NetDirection),
      combine f d = .high_bearish ↔ (f = .high ∧ d = .selling)) ∧
    (∀ (f : SignalLevel) (d : NetDirection),
      ¬(f = .high ∧ (d = .buying ∨ d = .selling)) →
      combine f d = .ofSignal f) ∧
    combine .medium .buying = .medium := by
  refine ⟨fun f d => ⟨combine f d, rfl, fun c hc => hc.symm⟩, ?_, ?_, ?_, by decide⟩
  · intro f d; cases f <;> cases d <;> simp [combine, CombinedLevel.ofSignal]
  · intro f d; cases f <;> cases d <;> simp [combine, CombinedLevel.ofSignal]
  · intro f d h; cases f <;> cases d <;> simp_all [combine, CombinedLevel.ofSignal]

/-- C2 witness: concrete instantiation of the combiner theorem. -/
theorem combine_total_deterministic_witness :
    combine .low .selling = .low :=
  combine_total_deterministic.2.2.2.1 .low .selling (by decide)

/-- Claim type of an evidence step or chain (frontend `EvidenceStep.claim_type`:
`'direct' | 'computed' | 'inferred'`). -/
inductive ClaimType
  | direct
  | computed
  | inferred
deriving DecidableEq, Repr

/-- One step of an evidence chain (frontend `EvidenceStep`; citation fields not
relevant to confidence combination are omitted). -/
structure EvidenceStep where
  step : ℕ
  fact : String
  claim_type : ClaimType
  confidence : ℚ
deriving DecidableEq, Repr

/-- An evidence chain (frontend `EvidenceChain`). -/
structure EvidenceChain where
  claim : String
  claim_type : ClaimType
  overall_confidence : ℚ
  evidence_steps : List EvidenceStep
deriving DecidableEq, Repr

/-- Modelled from the spec: the backend Evidence Chain Builder's confidence
combination rule (spec section 4.2) is not under `src/`; only the
`overall_confidence` field it produces appears in the frontend sources.
Overall confidence = minimum of all step confidences. -/
def overallConfidence (s : EvidenceStep) (rest : List EvidenceStep) : ℚ :=
  rest.foldr (fun t acc => min t.confidence acc) s.confidence

/-- Modelled from the spec: the backend Evidence Chain Builder (spec section
4.2) turns a nonempty hop sequence into an EvidenceChain whose overall
confidence is the minimum of the step confidences. -/
def buildChain (claim : String) (ct : ClaimType) (s : EvidenceStep)
    (rest : List EvidenceStep) : EvidenceChain :=
  { claim := claim
    claim_type := ct
    overall_confidence := overallConfidence s rest
    evidence_steps := s :: rest }

theorem overallConfidence_le_of_mem (s : EvidenceStep) (rest : List EvidenceStep) :
    ∀ t ∈ s :: rest, overallConfidence s rest ≤ t.confidence := by
  induction rest with
  | nil =>
    intro t ht
    simp only [List.mem_singleton] at ht
    simp [overallConfidence, ht]
  | cons u rest ih =>
    intro t ht
    have hoc : overallConfidence s (u :: rest) =
        min u.confidence (overallConfidence s rest) := rfl
    rcases List.mem_cons.mp ht with h | h
    · have := ih s (List.mem_cons_self s rest)
      rw [hoc, h]
      exact le_trans (min_le_right _ _) (h ▸ this)
    · rcases List.mem_cons.mp h with h' | h'
      · rw [hoc, h']
        exact min_le_left _ _
      · have := ih t (List.mem_cons_of_mem s h')
        rw [hoc]
        exact le_trans (min_le_right _ _) this

theorem overallConfidence_attained (s : EvidenceStep) (rest : List EvidenceStep) :
    ∃ t ∈ s :: rest, overallConfidence s rest = t.confidence := by
  induction rest with
  | nil => exact ⟨s, List.mem_cons_self s [], rfl⟩
  | cons u rest ih =>
    have hoc : overallConfidence s (u :: rest) =
        min u.confidence (overallConfidence s rest) := rfl
    rcases le_total u.confidence (overallConfidence s rest) with h | h
    · exact ⟨u, List.mem_cons_of_mem s (List.mem_cons_self u rest),
        by rw [hoc, min_eq_left h]⟩
    · obtain ⟨t, ht, heq⟩ := ih
      refine ⟨t, ?_, by rw [hoc, min_eq_right h, heq]⟩
      rcases List.mem_cons.mp ht with h' | h'
      · exact h' ▸ List.mem_cons_self s (u :: rest)
      · exact List.mem_cons_of_mem s (List.mem_cons_of_mem u h')

theorem overallConfidence_append (s : EvidenceStep) (rest : List EvidenceStep)
    (t : EvidenceStep) :
    overallConfidence s (rest ++ [t]) =
      min (overallConfidence s rest) t.confidence := by
  induction rest with
  | nil => simp [overallConfidence, min_comm]
  | cons u rest ih =>
    show min u.confidence (overallConfidence s (rest ++ [t])) = _
    rw [ih]
    show _ = min (min u.confidence (overallConfidence s rest)) t.confidence
    rw [min_assoc]

/-- C3: for every non-empty evidence chain produced by the builder, the
overall confidence is a lower bound of the step confidences and is attained
by one of them (it is their minimum), and appending a step of confidence C
never raises the overall confidence above min(existing, C). -/
theorem evidence_chain_min_confidence :
    (∀ (c : String) (ct : ClaimType) (s : EvidenceStep) (rest : List EvidenceStep),
      ∀ t ∈ (buildChain c ct s rest).evidence_steps,
        (buildChain c ct s rest).overall_confidence ≤ t.confidence) ∧
    (∀ (c : String) (ct : ClaimType) (s : EvidenceStep) (rest : List EvidenceStep),
      ∃ t ∈ (buildChain c ct s rest).evidence_steps,
        (buildChain c ct s rest).overall_confidence = t.confidence) ∧
    (∀ (c : String) (ct : ClaimType) (s : EvidenceStep) (rest : List EvidenceStep)
      (t : EvidenceStep),
      (buildChain c ct s (rest ++ [t])).overall_confidence ≤
        min (buildChain c ct s rest).overall_confidence t.confidence) := by
  refine ⟨?_, ?_, ?_⟩
  · intro c ct s rest t ht
    exact overallConfidence_le_of_mem s rest t ht
  · intro c ct s rest
    exact overallConfidence_attained s rest
  · intro c ct s rest t
    exact le_of_eq (overallConfidence_append s rest t)

/-- C3 witness: concrete instantiation on a two-step chain. -/
theorem evidence_chain_min_confidence_witness :
    (buildChain "x" .direct ⟨1, "f", .direct, 1⟩ [⟨2, "g", .inferred, 0⟩]).overall_confidence
      ≤ (1 : ℚ) :=
  evidence_chain_min_confidence.1 "x" .direct ⟨1, "f", .direct, 1⟩
    [⟨2, "g", .inferred, 0⟩] ⟨1, "f", .direct, 1⟩ (List.mem_cons_self _ _)

/-- Risk level (frontend `RiskAssessment.risk_level`:
`'LOW' | 'MEDIUM' | 'HIGH' | 'CRITICAL'`). -/
inductive RiskLevel
  | LOW
  | MEDIUM
  | HIGH
  | CRITICAL
deriving DecidableEq, Repr

/-- One risk factor (frontend `RiskFactor`; filing-citation fields not relevant
to aggregation are omitted). -/
structure RiskFactor where
  factor_name : String
  factor_description : String
  weight : ℕ
  source_type : String
  confidence : ℚ
deriving DecidableEq, Repr

/-- Modelled from the spec: the backend risk-level thresholds (spec section
4.4) are not under `src/`.  LOW below 25, MEDIUM 25 through 49, HIGH 50
through 79, CRITICAL 80 and above. -/
def riskLevelOf (score : ℕ) : RiskLevel :=
  if score < 25 then .LOW
  else if score < 50 then .MEDIUM
  else if score < 80 then .HIGH
  else .CRITICAL

theorem riskLevelOf_spec (score : ℕ) :
    (score < 25 → riskLevelOf score = .LOW) ∧
    (25 ≤ score → score ≤ 49 → riskLevelOf score = .MEDIUM) ∧
    (50 ≤ score → score ≤ 79 → riskLevelOf score = .HIGH) ∧
    (80 ≤ score → riskLevelOf score = .CRITICAL) := by
  unfold riskLevelOf
  refine ⟨?_, ?_, ?_, ?_⟩ <;> intros <;> split_ifs <;> first | rfl | omega

/-- A risk assessment (frontend `RiskAssessment`; the embedded evidence chain
is not relevant to score aggregation and is omitted). -/
structure RiskAssessment where
  entity_id : String
  entity_name : Option String
  risk_score : ℕ
  risk_level : RiskLevel
  factor_count : ℕ
  risk_factors : List RiskFactor
deriving DecidableEq, Repr

/-- Modelled from the spec: the backend Risk Factor Aggregator
`assess(entityId) -> RiskAssessment` (spec section 4.4) is not under `src/`.
The detector rules scan the entity's neighborhood and emit one RiskFactor per
triggered rule; that factor list is taken here as input.  Aggregation:
risk_score = sum of factor weights (unbounded, not normalized); risk_level
derived from the score by the fixed thresholds. -/
def assess (entity_id : String) (entity_name : Option String)
    (factors : List RiskFactor) : RiskAssessment :=
  let score := (factors.map RiskFactor.weight).sum
  { entity_id := entity_id
    entity_name := entity_name
    risk_score := score
    risk_level := riskLevelOf score
    factor_count := factors.length
    risk_factors := factors }

/-- C6: every assessment's risk_score is the sum of the weights of its risk
factors, and risk_level is derived from risk_score by the fixed thresholds:
LOW below 25, MEDIUM 25 through 49, HIGH 50 through 79, CRITICAL at and
above 80. -/
theorem assess_score_thresholds :
    (∀ (e : String) (n : Option String) (factors : List RiskFactor),
      (assess e n factors).risk_score =
        ((assess e n factors).risk_factors.map RiskFactor.weight).sum) ∧
    (∀ (e : String) (n : Option String) (factors : List RiskFactor),
      (assess e n factors).risk_score < 25 →
        (assess e n factors).risk_level = .LOW) ∧
    (∀ (e : String) (n : Option String) (factors : List RiskFactor),
      25 ≤ (assess e n factors).risk_score →
      (assess e n factors).risk_score ≤ 49 →
        (assess e n factors).risk_level = .MEDIUM) ∧
    (∀ (e : String) (n : Option String) (factors : List RiskFactor),
      50 ≤ (assess e n factors).risk_score →
      (assess e n factors).risk_score ≤ 79 →
        (assess e n factors).risk_level = .HIGH) ∧
    (∀ (e : String) (n : Option String) (factors : List RiskFactor),
      80 ≤ (assess e n factors).risk_score →
        (assess e n factors).risk_level = .CRITICAL) := by
  refine ⟨fun e n factors => rfl, ?_, ?_, ?_, ?_⟩
  · intro e n factors h
    exact (riskLevelOf_spec _).1 h
  · intro e n factors h1 h2
    exact (riskLevelOf_spec _).2.1 h1 h2
  · intro e n factors h1 h2
    exact (riskLevelOf_spec _).2.2.1 h1 h2
  · intro e n factors h
    exact (riskLevelOf_spec _).2.2.2 h

/-- C6 witness: a single factor of weight 30 yields score 30 and level
MEDIUM. -/
theorem assess_score_thresholds_witness :
    (assess "e1" (some "Acme") [⟨"sanctions", "d", 30, "ofac", 1⟩]).risk_level
      = .MEDIUM :=
  assess_score_thresholds.2.2.1 "e1" (some "Acme")
    [⟨"sanctions", "d", 30, "ofac", 1⟩] (by decide) (by decide)

/-- JS `Math.round`: round half toward positive infinity. -/
def jsRound (q : ℚ) : ℤ := ⌊q + 1 / 2⌋

/-- JS `Number.prototype.toFixed(1)` for a nonnegative value: the nearest
multiple of one tenth (ties toward the larger value), rendered with exactly
one decimal digit. -/
def toFixed1 (q : ℚ) : String :=
  toString (⌊q * 10 + 1 / 2⌋ / 10) ++ "." ++ toString (⌊q * 10 + 1 / 2⌋ % 10)

/-- Dollar-value formatter from
`frontend/src/components/VerdictCard.tsx` (duplicated verbatim in the
SignalStory page): at least 1e6 renders millions to one decimal, at least
1e3 renders rounded thousands, anything else renders the empty string. -/
def formatValue (val : ℚ) : String :=
  if 1000000 ≤ val then "$" ++ toFixed1 (val / 1000000) ++ "M"
  else if 1000 ≤ val then "$" ++ toString (jsRound (val / 1000)) ++ "K"
  else ""

/-- C10: formatValue returns the empty string for every value below 1000
(totals under one thousand dollars are silently omitted), the value in
millions to one decimal place for values of at least one million, and the
value in rounded thousands for values from 1000 up to but excluding one
million; with concrete renderings checked. -/
theorem formatValue_ranges :
    (∀ v : ℚ, v < 1000 → formatValue v = "") ∧
    (∀ v : ℚ, 1000000 ≤ v →
      formatValue v = "$" ++ toFixed1 (v / 1000000) ++ "M") ∧
    (∀ v : ℚ, 1000 ≤ v → v < 1000000 →
      formatValue v = "$" ++ toString (jsRound (v / 1000)) ++ "K") ∧
    formatValue 999 = "" ∧
    formatValue 2500000 = "$2.5M" ∧
    formatValue 1500 = "$2K" ∧
    formatValue 1000000 = "$1.0M" := by
  refine ⟨?_, ?_, ?_, ?_, ?_, ?_, ?_⟩
  · intro v hv
    have h1 : ¬(1000000 : ℚ) ≤ v := by linarith
    have h2 : ¬(1000 : ℚ) ≤ v := by linarith
    simp [formatValue, h1, h2]
  · intro v hv
    simp [formatValue, hv]
  · intro v hv hv'
    have h1 : ¬(1000000 : ℚ) ≤ v := by linarith
    simp [formatValue, h1, hv]
  · unfold formatValue
    rw [if_neg (by norm_num), if_neg (by norm_num)]
  · unfold formatValue toFixed1
    rw [if_pos (by norm_num),
      show (⌊(2500000 : ℚ) / 1000000 * 10 + 1 / 2⌋ : ℤ) = 25 by norm_num]
    decide
  · unfold formatValue jsRound
    rw [if_neg (by norm_num), if_pos (by norm_num),
      show (⌊(1500 : ℚ) / 1000 + 1 / 2⌋ : ℤ) = 2 by norm_num]
    decide
  · unfold formatValue toFixed1
    rw [if_pos (by norm_num),
      show (⌊(1000000 : ℚ) / 1000000 * 10 + 1 / 2⌋ : ℤ) = 10 by norm_num]
    decide

/-- C10 witness: a value below one thousand renders as the empty string. -/
theorem formatValue_ranges_witness :
    formatValue (999 / 2) = "" :=
  formatValue_ranges.1 (999 / 2) (by norm_num)

/-- A selected entity in the ConnectionFinder form (`{ id, name }` in
`ConnectionFinder.tsx`). -/
structure EntitySel where
  id : String
  name : String
deriving DecidableEq, Repr

/-- Search guard from the ConnectionFinder form component
(`const canSearch = entityA && entityB && entityA.id !== entityB.id`): the
find-connection request can only be issued when both entities are selected
and their ids differ. -/
def canSearch (entityA entityB : Option EntitySel) : Bool :=
  match entityA, entityB with
  | some a, some b => a.id != b.id
  | _, _ => false

/-- A typed, attributed relationship between two entity ids, carrying the
citation confidence (spec section 3; frontend edges carry `type` and
`properties`). -/
structure Rel where
  src : String
  dst : String
  rel_type : String
  confidence : ℚ
deriving DecidableEq, Repr

/-- The relationship graph: the list of relationships read from the fact
store. -/
abbrev Graph := List Rel

/-- Modelled from the spec: the Fact Store Adapter's
`neighbors(entityId)` (spec section 4.1) is not under `src/`.  Relationship
direction is normalized at read time so path search treats the graph as
undirected (spec section 3). -/
def neighbors (g : Graph) (u : String) : List String :=
  g.filterMap (fun r =>
    if r.src = u then some r.dst
    else if r.dst = u then some r.src
    else none)

/-- Undirected adjacency in the relationship graph. -/
def adjacent (g : Graph) (u v : String) : Bool :=
  (neighbors g u).contains v

/-- Confidence of the relationship cited for a hop; 0 when no matching
relationship exists (graceful degradation, spec section 7). -/
def edgeConfidence (g : Graph) (u v : String) : ℚ :=
  match g.find? (fun r => (r.src = u && r.dst = v) || (r.src = v && r.dst = u)) with
  | some r => r.confidence
  | Option.none => 0

/-- One BFS expansion step: extend a walk (stored reversed, head = current
endpoint) by every neighbor of its endpoint. -/
def stepWalk (g : Graph) (p : List String) : List (List String) :=
  match p with
  | [] => []
  | v :: _ => (neighbors g v).map (fun w => w :: p)

/-- Extend every walk of a BFS frontier by one hop. -/
def extendWalks (g : Graph) (ps : List (List String)) : List (List String) :=
  ps.flatMap (stepWalk g)

/-- All walks of exactly n hops starting at a (stored reversed, head = current
endpoint): the BFS frontier at depth n. -/
def walksFrom (g : Graph) (a : String) : ℕ → List (List String)
  | 0 => [[a]]
  | n + 1 => extendWalks g (walksFrom g a n)

/-- The n-hop walks from a that end at b. -/
def candidates (g : Graph) (a b : String) (n : ℕ) : List (List String) :=
  (walksFrom g a n).filter (fun p => p.head? == some b)

/-- Specification-level notion of an n-hop walk between two entities in the
undirected relationship graph. -/
inductive Walk (g : Graph) (a : String) : String → ℕ → Prop
  | nil : Walk g a a 0
  | cons {b c : String} {n : ℕ} :
      Walk g a b n → adjacent g b c = true → Walk g a c (n + 1)

theorem mem_stepWalk {g : Graph} {p p' : List String} :
    p' ∈ stepWalk g p ↔
      ∃ v rest, p = v :: rest ∧ ∃ w ∈ neighbors g v, p' = w :: p := by
  match p with
  | [] =>
    simp [stepWalk]
  | v :: rest =>
    simp only [stepWalk, List.mem_map]
    constructor
    · rintro ⟨w, hw, rfl⟩
      exact ⟨v, rest, rfl, w, hw, rfl⟩
    · rintro ⟨v', rest', heq, w, hw, rfl⟩
      obtain ⟨rfl, rfl⟩ := List.cons.injEq .. ▸ heq
      exact ⟨w, hw, rfl⟩

theorem mem_extendWalks {g : Graph} {ps : List (List String)} {p' : List String} :
    p' ∈ extendWalks g ps ↔
      ∃ q ∈ ps, ∃ v rest, q = v :: rest ∧ ∃ w ∈ neighbors g v, p' = w :: q := by
  simp only [extendWalks, List.mem_flatMap, mem_stepWalk]

theorem mem_neighbors_iff_adjacent {g : Graph} {u v : String} :
    v ∈ neighbors g u ↔ adjacent g u v = true := by
  show v ∈ neighbors g u ↔ (neighbors g u).elem v = true
  exact ⟨fun h => List.elem_iff.mpr h, fun h => List.elem_iff.mp h⟩

theorem walksFrom_head_iff (g : Graph) (a : String) :
    ∀ (n : ℕ) (b : String),
      (∃ p ∈ walksFrom g a n, p.head? = some b) ↔ Walk g a b n := by
  intro n
  induction n with
  | zero =>
    intro b
    constructor
    · rintro ⟨p, hp, hh⟩
      simp only [walksFrom, List.mem_singleton] at hp
      subst hp
      simp only [List.head?] at hh
      cases hh
      exact Walk.nil
    · intro w
      cases w
      exact ⟨[a], List.mem_singleton.mpr rfl, rfl⟩
  | succ n ih =>
    intro b
    constructor
    · rintro ⟨p, hp, hh⟩
      rw [show walksFrom g a (n + 1) = extendWalks g (walksFrom g a n) from rfl] at hp
      obtain ⟨q, hq, v, rest, rfl, w, hw, rfl⟩ := mem_extendWalks.mp hp
      simp only [List.head?] at hh
      cases hh
      have hv : Walk g a v n := (ih v).mp ⟨v :: rest, hq, rfl⟩
      exact Walk.cons hv (mem_neighbors_iff_adjacent.mp hw)
    · intro w
      cases w with
      | cons hwalk hadj =>
        rename_i v
        obtain ⟨p, hp, hh⟩ := (ih _).mpr hwalk
        match p, hh with
        | v :: rest, rfl =>
          refine ⟨_ :: v :: rest, ?_, rfl⟩
          rw [show walksFrom g a (n + 1) = extendWalks g (walksFrom g a n) from rfl]
          exact mem_extendWalks.mpr
            ⟨v :: rest, hp, v, rest, rfl, _, mem_neighbors_iff_adjacent.mpr hadj, rfl⟩

theorem candidates_ne_nil_iff (g : Graph) (a b : String) (n : ℕ) :
    candidates g a b n ≠ [] ↔ Walk g a b n := by
  rw [← walksFrom_head_iff g a n b]
  constructor
  · intro h
    match hc : candidates g a b n with
    | [] => exact absurd hc h
    | p :: ps =>
      have hp : p ∈ candidates g a b n := hc ▸ List.mem_cons_self p ps
      have := List.mem_filter.mp hp
      exact ⟨p, this.1, by simpa using this.2⟩
  · rintro ⟨p, hp, hh⟩ hnil
    have : p ∈ candidates g a b n :=
      List.mem_filter.mpr ⟨hp, by simpa using hh⟩
    simp [hnil] at this

/-- Level-by-level bounded BFS: starting at depth n with the given fuel,
return the first depth at which some walk reaches the target, together with
all walks of that depth. -/
def searchFrom (g : Graph) (a b : String) : ℕ → ℕ → Option (ℕ × List (List String))
  | _, 0 => Option.none
  | n, fuel + 1 =>
    if (candidates g a b n).isEmpty then searchFrom g a b (n + 1) fuel
    else some (n, candidates g a b n)

theorem searchFrom_eq_some {g : Graph} {a b : String} :
    ∀ {fuel n m : ℕ} {cs : List (List String)},
      searchFrom g a b n fuel = some (m, cs) →
      n ≤ m ∧ m < n + fuel ∧ cs = candidates g a b m ∧ cs ≠ [] ∧
        ∀ k, n ≤ k → k < m → candidates g a b k = [] := by
  intro fuel
  induction fuel with
  | zero => intro n m cs h; simp [searchFrom] at h
  | succ fuel ih =>
    intro n m cs h
    rw [searchFrom] at h
    by_cases he : (candidates g a b n).isEmpty
    · rw [if_pos he] at h
      obtain ⟨h1, h2, h3, h4, h5⟩ := ih h
      refine ⟨by omega, by omega, h3, h4, ?_⟩
      intro k hk1 hk2
      rcases Nat.eq_or_lt_of_le hk1 with rfl | hlt
      · exact List.isEmpty_iff.mp he
      · exact h5 k hlt hk2
    · rw [if_neg he] at h
      obtain ⟨rfl, rfl⟩ := Prod.mk.injEq .. ▸ Option.some.injEq .. ▸ h
      refine ⟨le_refl n, by omega, rfl, ?_, fun k hk1 hk2 => by omega⟩
      intro hnil
      exact he (List.isEmpty_iff.mpr hnil)

theorem searchFrom_eq_none {g : Graph} {a b : String} :
    ∀ {fuel n : ℕ},
      searchFrom g a b n fuel = Option.none →
      ∀ k, n ≤ k → k < n + fuel → candidates g a b k = [] := by
  intro fuel
  induction fuel with
  | zero => intro n _ k hk1 hk2; omega
  | succ fuel ih =>
    intro n h k hk1 hk2
    rw [searchFrom] at h
    by_cases he : (candidates g a b n).isEmpty
    · rw [if_pos he] at h
      rcases Nat.eq_or_lt_of_le hk1 with rfl | hlt
      · exact List.isEmpty_iff.mp he
      · exact ih h k hlt (by omega)
    · rw [if_neg he] at h
      cases h

/-- Lexicographic order (as a Boolean less-or-equal) on lists of entity
ids. -/
def lexLe : List String → List String → Bool
  | [], _ => true
  | _ :: _, [] => false
  | x :: xs, y :: ys =>
    if x < y then true
    else if x = y then lexLe xs ys
    else false

theorem lexLe_cons_iff {x y : String} {xs ys : List String} :
    lexLe (x :: xs) (y :: ys) = true ↔ x < y ∨ (x = y ∧ lexLe xs ys = true) := by
  show (if x < y then true else if x = y then lexLe xs ys else false) = true ↔ _
  split_ifs with h1 h2
  · simp [h1]
  · simp [h1, h2]
  · simp [h1, h2]

theorem lexLe_refl : ∀ xs : List String, lexLe xs xs = true := by
  intro xs
  induction xs with
  | nil => rfl
  | cons x xs ih => exact lexLe_cons_iff.mpr (Or.inr ⟨rfl, ih⟩)

theorem lexLe_total : ∀ xs ys : List String, lexLe xs ys = true ∨ lexLe ys xs = true := by
  intro xs
  induction xs with
  | nil => intro ys; exact Or.inl rfl
  | cons x xs ih =>
    intro ys
    match ys with
    | [] => exact Or.inr rfl
    | y :: ys =>
      rcases lt_trichotomy x y with h | h | h
      · exact Or.inl (lexLe_cons_iff.mpr (Or.inl h))
      · rcases ih ys with h' | h'
        · exact Or.inl (lexLe_cons_iff.mpr (Or.inr ⟨h, h'⟩))
        · exact Or.inr (lexLe_cons_iff.mpr (Or.inr ⟨h.symm, h'⟩))
      · exact Or.inr (lexLe_cons_iff.mpr (Or.inl h))

theorem lexLe_trans : ∀ {xs ys zs : List String},
    lexLe xs ys = true → lexLe ys zs = true → lexLe xs zs = true := by
  intro xs
  induction xs with
  | nil => intro ys zs _ _; rfl
  | cons x xs ih =>
    intro ys zs h1 h2
    match ys, zs with
    | [], _ => cases h1
    | _ :: _, [] => cases h2
    | y :: ys, z :: zs =>
      rcases lexLe_cons_iff.mp h1 with hxy | ⟨rfl, hxy⟩ <;>
        rcases lexLe_cons_iff.mp h2 with hyz | ⟨rfl, hyz⟩
      · exact lexLe_cons_iff.mpr (Or.inl (lt_trans hxy hyz))
      · exact lexLe_cons_iff.mpr (Or.inl hxy)
      · exact lexLe_cons_iff.mpr (Or.inl hyz)
      · exact lexLe_cons_iff.mpr (Or.inr ⟨rfl, ih hxy hyz⟩)

/-- The intermediate entity ids of a walk stored reversed (endpoints
excluded), in path order from the start entity. -/
def intermediates (p : List String) : List String :=
  (p.reverse.drop 1).dropLast

/-- Minimum step confidence along a walk stored reversed — the chain's
overall confidence under the minimum combination rule (spec section 4.2). -/
def pathConfidence (g : Graph) : List String → ℚ
  | [] => 0
  | [_] => 1
  | u :: v :: rest => min (edgeConfidence g u v) (pathConfidence g (v :: rest))

/-- Modelled from the spec: the Connection Finder's deterministic tie-break
(spec section 4.3) is not under `src/`.  Walk p is preferred to walk q when
its minimum step confidence is higher, or on equal confidence when its
intermediate entity ids come lexicographically first. -/
def prefWalk (g : Graph) (p q : List String) : Bool :=
  if pathConfidence g q < pathConfidence g p then true
  else if pathConfidence g p < pathConfidence g q then false
  else lexLe (intermediates p) (intermediates q)

theorem prefWalk_iff {g : Graph} {p q : List String} :
    prefWalk g p q = true ↔
      pathConfidence g q < pathConfidence g p ∨
        (pathConfidence g p = pathConfidence g q ∧
          lexLe (intermediates p) (intermediates q) = true) := by
  show (if pathConfidence g q < pathConfidence g p then true
    else if pathConfidence g p < pathConfidence g q then false
    else lexLe (intermediates p) (intermediates q)) = true ↔ _
  split_ifs with h1 h2
  · simp [h1]
  · simp [h1, h2]
    intro h
    exact absurd (h ▸ h2) (lt_irrefl _)
  · have heq : pathConfidence g p = pathConfidence g q :=
      le_antisymm (not_lt.mp h1) (not_lt.mp h2)
    simp [h1, heq]

theorem prefWalk_refl (g : Graph) (p : List String) : prefWalk g p p = true :=
  prefWalk_iff.mpr (Or.inr ⟨rfl, lexLe_refl _⟩)

theorem prefWalk_total (g : Graph) (p q : List String) :
    prefWalk g p q = true ∨ prefWalk g q p = true := by
  rcases lt_trichotomy (pathConfidence g p) (pathConfidence g q) with h | h | h
  · exact Or.inr (prefWalk_iff.mpr (Or.inl h))
  · rcases lexLe_total (intermediates p) (intermediates q) with h' | h'
    · exact Or.inl (prefWalk_iff.mpr (Or.inr ⟨h, h'⟩))
    · exact Or.inr (prefWalk_iff.mpr (Or.inr ⟨h.symm, h'⟩))
  · exact Or.inl (prefWalk_iff.mpr (Or.inl h))

theorem prefWalk_trans {g : Graph} {p q r : List String} :
    prefWalk g p q = true → prefWalk g q r = true → prefWalk g p r = true := by
  intro h1 h2
  rcases prefWalk_iff.mp h1 with hc1 | ⟨he1, hl1⟩ <;>
    rcases prefWalk_iff.mp h2 with hc2 | ⟨he2, hl2⟩
  · exact prefWalk_iff.mpr (Or.inl (lt_trans hc2 hc1))
  · exact prefWalk_iff.mpr (Or.inl (he2 ▸ hc1))
  · exact prefWalk_iff.mpr (Or.inl (he1 ▸ hc2))
  · exact prefWalk_iff.mpr (Or.inr ⟨he1.trans he2, lexLe_trans hl1 hl2⟩)

/-- Deterministically select the preferred walk out of a list of
equal-length candidates. -/
def pickBest (g : Graph) : List (List String) → Option (List String)
  | [] => Option.none
  | p :: ps => some (ps.foldl (fun best q => if prefWalk g q best then q else best) p)

theorem pickBest_foldl_spec (g : Graph) :
    ∀ (ps : List (List String)) (acc : List String),
      (ps.foldl (fun best q => if prefWalk g q best then q else best) acc = acc ∨
        ps.foldl (fun best q => if prefWalk g q best then q else best) acc ∈ ps) ∧
      prefWalk g (ps.foldl (fun best q => if prefWalk g q best then q else best) acc) acc = true ∧
      ∀ q ∈ ps,
        prefWalk g (ps.foldl (fun best q => if prefWalk g q best then q else best) acc) q = true := by
  intro ps
  induction ps with
  | nil =>
    intro acc
    exact ⟨Or.inl rfl, prefWalk_refl g acc, fun q hq => absurd hq (List.not_mem_nil q)⟩
  | cons q ps ih =>
    intro acc
    rw [List.foldl_cons]
    by_cases hq : prefWalk g q acc = true
    · rw [if_pos hq]
      obtain ⟨hmem, hacc, hall⟩ := ih q
      refine ⟨?_, prefWalk_trans hacc hq, ?_⟩
      · rcases hmem with h | h
        · exact Or.inr (by rw [h]; exact List.mem_cons_self q ps)
        · exact Or.inr (List.mem_cons_of_mem q h)
      · intro r hr
        rcases List.mem_cons.mp hr with rfl | hr'
        · exact hacc
        · exact hall r hr'
    · rw [if_neg hq]
      obtain ⟨hmem, hacc, hall⟩ := ih acc
      refine ⟨?_, hacc, ?_⟩
      · rcases hmem with h | h
        · exact Or.inl h
        · exact Or.inr (List.mem_cons_of_mem q h)
      · intro r hr
        rcases List.mem_cons.mp hr with rfl | hr'
        · have hacc_r : prefWalk g acc r = true := by
            rcases prefWalk_total g r acc with h | h
            · exact absurd h hq
            · exact h
          exact prefWalk_trans hacc hacc_r
        · exact hall r hr'

theorem pickBest_spec {g : Graph} {cs : List (List String)} {p : List String} :
    pickBest g cs = some p → p ∈ cs ∧ ∀ q ∈ cs, prefWalk g p q = true := by
  intro h
  match cs with
  | [] => cases h
  | c :: cs =>
    obtain rfl : (cs.foldl (fun best q => if prefWalk g q best then q else best) c) = p :=
      Option.some.injEq .. ▸ h
    obtain ⟨hmem, hacc, hall⟩ := pickBest_foldl_spec g cs c
    refine ⟨?_, ?_⟩
    · rcases hmem with h' | h'
      · rw [h']; exact List.mem_cons_self c cs
      · exact List.mem_cons_of_mem c h'
    · intro q hq
      rcases List.mem_cons.mp hq with rfl | hq'
      · exact hacc
      · exact hall q hq'

/-- Store/transport error taxonomy (spec section 7). -/
inductive StoreError
  | notFound
  | storeUnavailable
deriving DecidableEq, Repr

/-- A connection claim (frontend `ConnectionClaim`; the human-readable
sentence and the per-hop evidence chain are carried by the path itself
here). -/
structure ConnectionClaim where
  entity_a_id : String
  entity_b_id : String
  connection_path : List String
  path_length : ℕ
  overall_confidence : ℚ
deriving DecidableEq, Repr

/-- Result of a find-connection request: a typed success, the expected
NoConnectionFound outcome, an invalid-request rejection, or a store/transport
error (spec section 7). -/
inductive FindResult
  | ok (c : ConnectionClaim)
  | noConnectionFound
  | invalidRequest
  | storeError (e : StoreError)
deriving DecidableEq, Repr

/-- Modelled from the spec: the backend Connection Finder
`findConnection(entityA, entityB, maxHops)` (spec sections 4.3, 6, 8) is not
under `src/`; only its API client and result type appear in the frontend
sources.  Same-entity requests are rejected as invalid; otherwise a bounded
breadth-first search over the undirected relationship graph returns the
shortest walk from A to B within maxHops, tie-breaking deterministically by
highest minimum step confidence and then lexicographic intermediate ids;
exhausting the bound without reaching B yields NoConnectionFound. -/
def findConnection (g : Graph) (a b : String) (maxHops : ℕ) : FindResult :=
  if a = b then .invalidRequest
  else
    match searchFrom g a b 1 maxHops with
    | Option.none => .noConnectionFound
    | some (n, cs) =>
      match pickBest g cs with
      | Option.none => .noConnectionFound
      | some p =>
        .ok { entity_a_id := a
              entity_b_id := b
              connection_path := p.reverse
              path_length := n
              overall_confidence := pathConfidence g p }

/-- C4: for every pair of distinct entities reachable from each other within
maxHops in the undirected relationship graph, findConnection returns a claim
whose path_length is the true shortest walk length between them. -/
theorem findConnection_shortest_path :
    ∀ (g : Graph) (a b : String) (maxHops : ℕ),
      a ≠ b →
      (∃ n, n ≤ maxHops ∧ Walk g a b n) →
      ∃ c, findConnection g a b maxHops = .ok c ∧
        Walk g a b c.path_length ∧
        ∀ m, Walk g a b m → c.path_length ≤ m := by
  intro g a b maxHops hne h
  obtain ⟨n0, hn0, hw0⟩ := h
  have hn0pos : 1 ≤ n0 := by
    rcases Nat.eq_zero_or_pos n0 with rfl | h
    · cases hw0
      exact absurd rfl hne
    · exact h
  have hc0 : candidates g a b n0 ≠ [] := (candidates_ne_nil_iff g a b n0).mpr hw0
  have hsome : ∃ m cs, searchFrom g a b 1 maxHops = some (m, cs) := by
    match hs : searchFrom g a b 1 maxHops with
    | Option.none =>
      exact absurd (searchFrom_eq_none hs n0 hn0pos (by omega)) hc0
    | some (m, cs) => exact ⟨m, cs, rfl⟩
  obtain ⟨m, cs, hs⟩ := hsome
  obtain ⟨hm1, hm2, hcs, hcsne, hmin⟩ := searchFrom_eq_some hs
  have hpick : ∃ p, pickBest g cs = some p := by
    match cs, hcsne with
    | c :: cs, _ => exact ⟨_, rfl⟩
  obtain ⟨p, hp⟩ := hpick
  refine ⟨{ entity_a_id := a
            entity_b_id := b
            connection_path := p.reverse
            path_length := m
            overall_confidence := pathConfidence g p }, ?_, ?_, ?_⟩
  · simp only [findConnection, if_neg hne, hs, hp]
  · show Walk g a b m
    refine (candidates_ne_nil_iff g a b m).mp ?_
    rw [← hcs]
    exact hcsne
  · intro k hwk
    show m ≤ k
    by_contra hlt
    push_neg at hlt
    have hk1 : 1 ≤ k := by
      rcases Nat.eq_zero_or_pos k with rfl | h
      · cases hwk
        exact absurd rfl hne
      · exact h
    exact (candidates_ne_nil_iff g a b k).mpr hwk (hmin k hk1 hlt)

/-- A two-hop path graph a — b — c used for concrete instantiations. -/
def pathGraphABC : Graph :=
  [⟨"a", "b", "owns", 1⟩, ⟨"b", "c", "owns", 1⟩]

/-- A diamond graph with a high-confidence route a — x — c and a
low-confidence route a — y — c, used for concrete instantiations. -/
def diamondGraph : Graph :=
  [⟨"a", "y", "owns", 0⟩, ⟨"y", "c", "owns", 1⟩,
   ⟨"a", "x", "owns", 1⟩, ⟨"x", "c", "owns", 1⟩]

/-- C4 witness: on the path graph a—b—c the finder returns the two-hop
shortest connection. -/
theorem findConnection_shortest_path_witness :
    ∃ c, findConnection pathGraphABC "a" "c" 4 = .ok c ∧
      Walk pathGraphABC "a" "c" c.path_length ∧
      ∀ m, Walk pathGraphABC "a" "c" m → c.path_length ≤ m := by
  apply findConnection_shortest_path pathGraphABC "a" "c" 4 (by decide)
  refine ⟨2, by omega, ?_⟩
  have h1 : Walk pathGraphABC "a" "b" 1 := Walk.cons Walk.nil (by decide)
  exact Walk.cons h1 (by decide)

/-- C7: exhausting the hop bound without reaching the target yields the typed
NoConnectionFound outcome, which is distinct (as a constructor of the result
type) from the NotFound and StoreUnavailable store/transport errors, from an
invalid request and from every success. -/
theorem noConnectionFound_typed :
    (∀ (g : Graph) (a b : String) (maxHops : ℕ),
      a ≠ b →
      (∀ n, n ≤ maxHops → ¬ Walk g a b n) →
      findConnection g a b maxHops = .noConnectionFound) ∧
    (FindResult.noConnectionFound ≠ FindResult.storeError .notFound) ∧
    (FindResult.noConnectionFound ≠ FindResult.storeError .storeUnavailable) ∧
    (∀ c : ConnectionClaim, FindResult.noConnectionFound ≠ FindResult.ok c) ∧
    (FindResult.noConnectionFound ≠ FindResult.invalidRequest) := by
  refine ⟨?_, ?_, ?_, ?_, ?_⟩
  · intro g a b maxHops hne hnw
    unfold findConnection
    rw [if_neg hne]
    cases hs : searchFrom g a b 1 maxHops with
    | none => rfl
    | some val =>
      obtain ⟨m, cs⟩ := val
      obtain ⟨hm1, hm2, hcs, hcsne, _⟩ := searchFrom_eq_some hs
      have hwm : Walk g a b m := by
        refine (candidates_ne_nil_iff g a b m).mp ?_
        rw [← hcs]
        exact hcsne
      exact absurd hwm (hnw m (by omega))
  · intro h
    cases h
  · intro h
    cases h
  · intro c h
    cases h
  · intro h
    cases h

/-- C7 witness: in the empty graph two distinct entities are unreachable and
the finder reports NoConnectionFound. -/
theorem noConnectionFound_typed_witness :
    findConnection [] "a" "b" 4 = .noConnectionFound := by
  apply noConnectionFound_typed.1 [] "a" "b" 4 (by decide)
  intro n hn w
  have h := (candidates_ne_nil_iff [] "a" "b" n).mpr w
  interval_cases n <;> exact h (by decide)

/-- C8: a find-connection request with both endpoints the same entity is
rejected as an invalid request rather than answered with a zero-length
connection, and the frontend form guard likewise refuses to issue the
request when the two selected entities share an id. -/
theorem findConnection_rejects_same_entity :
    (∀ (g : Graph) (e : String) (maxHops : ℕ),
      findConnection g e e maxHops = .invalidRequest) ∧
    (∀ (g : Graph) (e : String) (maxHops : ℕ) (c : ConnectionClaim),
      findConnection g e e maxHops ≠ .ok c) ∧
    (∀ a : EntitySel, canSearch (some a) (some a) = false) := by
  have h1 : ∀ (g : Graph) (e : String) (maxHops : ℕ),
      findConnection g e e maxHops = .invalidRequest := by
    intro g e maxHops
    unfold findConnection
    rw [if_pos rfl]
  refine ⟨h1, ?_, ?_⟩
  · intro g e maxHops c h
    rw [h1 g e maxHops] at h
    cases h
  · intro a
    show (a.id != a.id) = false
    simp

theorem findConnection_ok_inv {g : Graph} {a b : String} {maxHops : ℕ}
    {c : ConnectionClaim} (h : findConnection g a b maxHops = .ok c) :
    ∃ m cs p, a ≠ b ∧ searchFrom g a b 1 maxHops = some (m, cs) ∧
      pickBest g cs = some p ∧
      c = { entity_a_id := a
            entity_b_id := b
            connection_path := p.reverse
            path_length := m
            overall_confidence := pathConfidence g p } := by
  unfold findConnection at h
  split at h
  next => cases h
  next hab =>
    split at h
    next => cases h
    next n cs hs =>
      split at h
      next => cases h
      next p hp =>
        cases h
        exact ⟨n, cs, p, hab, hs, hp, rfl⟩

/-- C8 witness: a same-entity request on the empty graph is rejected as
invalid. -/
theorem findConnection_rejects_same_entity_witness :
    findConnection [] "e" "e" 4 = .invalidRequest :=
  findConnection_rejects_same_entity.1 [] "e" 4

/-- C9: findConnection is a deterministic function of its inputs, and when it
succeeds the returned path is one of the shortest-length candidate walks and
is preferred (highest minimum step confidence, then lexicographically first
intermediate entity ids) over every equal-length candidate. -/
theorem findConnection_deterministic_tiebreak :
    (∀ (g : Graph) (a b : String) (maxHops : ℕ),
      findConnection g a b maxHops = findConnection g a b maxHops) ∧
    (∀ (g : Graph) (a b : String) (maxHops : ℕ) (c : ConnectionClaim),
      findConnection g a b maxHops = .ok c →
        c.connection_path.reverse ∈ candidates g a b c.path_length ∧
        ∀ q ∈ candidates g a b c.path_length,
          prefWalk g (c.connection_path.reverse) q = true) := by
  refine ⟨fun g a b maxHops => rfl, ?_⟩
  intro g a b maxHops c h
  obtain ⟨m, cs, p, hab, hs, hp, rfl⟩ := findConnection_ok_inv h
  obtain ⟨hm1, hm2, hcs, hcsne, hmin⟩ := searchFrom_eq_some hs
  obtain ⟨hpmem, hpall⟩ := pickBest_spec hp
  constructor
  · show (p.reverse).reverse ∈ candidates g a b m
    rw [List.reverse_reverse, ← hcs]
    exact hpmem
  · show ∀ q ∈ candidates g a b m, prefWalk g ((p.reverse).reverse) q = true
    rw [List.reverse_reverse, ← hcs]
    exact hpall

/-- C9 witness: on a diamond graph with a high-confidence and a
low-confidence two-hop route, the returned path is a shortest candidate
preferred over every equal-length candidate. -/
theorem findConnection_deterministic_tiebreak_witness :
    (⟨"a", "c", ["a", "x", "c"], 2, 1⟩ : ConnectionClaim).connection_path.reverse
        ∈ candidates diamondGraph "a" "c"
            (⟨"a", "c", ["a", "x", "c"], 2, 1⟩ : ConnectionClaim).path_length ∧
      ∀ q ∈ candidates diamondGraph "a" "c"
            (⟨"a", "c", ["a", "x", "c"], 2, 1⟩ : ConnectionClaim).path_length,
        prefWalk diamondGraph
          ((⟨"a", "c", ["a", "x", "c"], 2, 1⟩ : ConnectionClaim).connection_path.reverse)
          q = true :=
  findConnection_deterministic_tiebreak.2 diamondGraph "a" "c" 4
    ⟨"a", "c", ["a", "x", "c"], 2, 1⟩ (by decide)

/-- An insider transaction (frontend `InsiderTrade`): filer name and title,
transaction date (as a day number), transaction code (P = purchase,
S = sale, ...), and derived total value. -/
structure InsiderTransaction where
  insider_name : String
  insider_title : String
  transaction_date : ℕ
  transaction_code : String
  total_value : ℚ
deriving DecidableEq, Repr

/-- Per-buyer aggregate of a cluster (frontend `ClusterBuyerDetail`). -/
structure ClusterBuyerDetail where
  name : String
  title : String
  total_value : ℚ
  trade_count : ℕ
deriving DecidableEq, Repr

/-- A detected insider cluster (frontend `ClusterDetail`). -/
structure ClusterDetail where
  window_start : ℕ
  window_end : ℕ
  num_buyers : ℕ
  buyers : List ClusterBuyerDetail
deriving DecidableEq, Repr

/-- Insert a transaction into a date-sorted list, keeping it sorted. -/
def insertByDate (t : InsiderTransaction) :
    List InsiderTransaction → List InsiderTransaction
  | [] => [t]
  | u :: us =>
    if t.transaction_date ≤ u.transaction_date then t :: u :: us
    else u :: insertByDate t us

/-- Sort transactions by date (insertion sort). -/
def sortByDate : List InsiderTransaction → List InsiderTransaction
  | [] => []
  | t :: ts => insertByDate t (sortByDate ts)

/-- Accumulate window groups over a date-sorted transaction list: a
transaction joins the current group when its date is within windowDays of
the previous one, otherwise it opens a new group. -/
def groupGo (windowDays : ℕ) (cur : List InsiderTransaction) (prev : ℕ) :
    List InsiderTransaction → List (List InsiderTransaction)
  | [] => [cur.reverse]
  | t :: ts =>
    if t.transaction_date ≤ prev + windowDays then
      groupGo windowDays (t :: cur) t.transaction_date ts
    else
      cur.reverse :: groupGo windowDays [t] t.transaction_date ts

/-- Group a date-sorted transaction list into maximal runs of overlapping
window ranges. -/
def groupWindows (windowDays : ℕ) :
    List InsiderTransaction → List (List InsiderTransaction)
  | [] => []
  | t :: ts => groupGo windowDays [t] t.transaction_date ts

/-- The distinct filer names of a transaction group. -/
def distinctFilers (g : List InsiderTransaction) : List String :=
  (g.map InsiderTransaction.insider_name).dedup

/-- Earliest transaction date of a group (0 for an empty group). -/
def minDate : List InsiderTransaction → ℕ
  | [] => 0
  | t :: ts => ts.foldr (fun u acc => min u.transaction_date acc) t.transaction_date

/-- Latest transaction date of a group (0 for an empty group). -/
def maxDate : List InsiderTransaction → ℕ
  | [] => 0
  | t :: ts => ts.foldr (fun u acc => max u.transaction_date acc) t.transaction_date

/-- Per-buyer aggregate for one filer of a group: total value and trade
count over that filer's transactions. -/
def buyerDetail (g : List InsiderTransaction) (name : String) : ClusterBuyerDetail :=
  { name := name
    title := (((g.filter (fun t => t.insider_name == name)).head?.map
      InsiderTransaction.insider_title).getD "")
    total_value :=
      ((g.filter (fun t => t.insider_name == name)).map
        InsiderTransaction.total_value).sum
    trade_count := (g.filter (fun t => t.insider_name == name)).length }

/-- Cluster attributes of a qualifying group: window bounds are the min/max
transaction date, num_buyers the distinct filer count, plus per-buyer
aggregates. -/
def mkCluster (g : List InsiderTransaction) : ClusterDetail :=
  { window_start := minDate g
    window_end := maxDate g
    num_buyers := (distinctFilers g).length
    buyers := (distinctFilers g).map (buyerDetail g) }

/-- Modelled from the spec: the backend Insider Cluster Detector
`detectClusters(companyId, windowDays)` (spec section 4.6) is not under
`src/`; only the `ClusterDetail` shape it produces appears in the frontend
sources.  The company's purchase-type (code P) transactions are grouped by
overlapping date ranges within the sliding window, and a cluster is emitted
for every group with at least 3 distinct insiders. -/
def detectClusters (txs : List InsiderTransaction) (windowDays : ℕ) :
    List ClusterDetail :=
  ((groupWindows windowDays
      (sortByDate (txs.filter (fun t => t.transaction_code == "P")))).filter
    (fun g => 3 ≤ (distinctFilers g).length)).map mkCluster

theorem mem_insertByDate {t u : InsiderTransaction} :
    ∀ {l : List InsiderTransaction}, u ∈ insertByDate t l ↔ u = t ∨ u ∈ l := by
  intro l
  induction l with
  | nil => simp [insertByDate]
  | cons v vs ih =>
    show u ∈ (if t.transaction_date ≤ v.transaction_date then t :: v :: vs
      else v :: insertByDate t vs) ↔ _
    split_ifs with h
    · simp [or_comm, or_assoc, or_left_comm]
    · simp [ih, or_comm, or_assoc, or_left_comm]

theorem mem_sortByDate {u : InsiderTransaction} :
    ∀ {l : List InsiderTransaction}, u ∈ sortByDate l ↔ u ∈ l := by
  intro l
  induction l with
  | nil => simp [sortByDate]
  | cons v vs ih =>
    show u ∈ insertByDate v (sortByDate vs) ↔ _
    rw [mem_insertByDate]
    simp [ih]

theorem mem_of_mem_groupGo {w : ℕ} :
    ∀ {l cur : List InsiderTransaction} {prev : ℕ} {g : List InsiderTransaction},
      g ∈ groupGo w cur prev l → ∀ t ∈ g, t ∈ cur ∨ t ∈ l := by
  intro l
  induction l with
  | nil =>
    intro cur prev g hg t ht
    simp only [groupGo, List.mem_singleton] at hg
    subst hg
    exact Or.inl (List.mem_reverse.mp ht)
  | cons v vs ih =>
    intro cur prev g hg t ht
    rw [show groupGo w cur prev (v :: vs) =
      (if v.transaction_date ≤ prev + w then groupGo w (v :: cur) v.transaction_date vs
       else cur.reverse :: groupGo w [v] v.transaction_date vs) from rfl] at hg
    split_ifs at hg with hsplit
    · rcases ih hg t ht with hc | hc
      · rcases List.mem_cons.mp hc with rfl | hc'
        · exact Or.inr (List.mem_cons_self t vs)
        · exact Or.inl hc'
      · exact Or.inr (List.mem_cons_of_mem v hc)
    · rcases List.mem_cons.mp hg with rfl | hg'
      · exact Or.inl (List.mem_reverse.mp ht)
      · rcases ih hg' t ht with hc | hc
        · rcases List.mem_singleton.mp hc with rfl
          exact Or.inr (List.mem_cons_self t vs)
        · exact Or.inr (List.mem_cons_of_mem v hc)

theorem mem_of_mem_groupWindows {w : ℕ} {l g : List InsiderTransaction}
    (hg : g ∈ groupWindows w l) {t : InsiderTransaction} (ht : t ∈ g) : t ∈ l := by
  match l with
  | [] => simp [groupWindows] at hg
  | v :: vs =>
    rcases mem_of_mem_groupGo hg t ht with hc | hc
    · rcases List.mem_singleton.mp hc with rfl
      exact List.mem_cons_self t vs
    · exact List.mem_cons_of_mem v hc

theorem dedup_length_mono {l1 l2 : List String} (h : ∀ x ∈ l1, x ∈ l2) :
    l1.dedup.length ≤ l2.dedup.length := by
  rw [← List.card_toFinset, ← List.card_toFinset]
  refine Finset.card_le_card ?_
  intro x hx
  rw [List.mem_toFinset] at hx ⊢
  exact h x hx

/-- Three purchases by three distinct insiders within a 10-day span. -/
def exampleThreeBuyers : List InsiderTransaction :=
  [⟨"alice", "CEO", 100, "P", 50000⟩,
   ⟨"bob", "CFO", 105, "P", 20000⟩,
   ⟨"carol", "COO", 110, "P", 10000⟩]

/-- Three purchases but only two distinct insiders. -/
def exampleTwoBuyers : List InsiderTransaction :=
  [⟨"alice", "CEO", 100, "P", 50000⟩,
   ⟨"bob", "CFO", 105, "P", 20000⟩,
   ⟨"alice", "CEO", 110, "P", 10000⟩]

/-- C5: every emitted cluster has at least 3 distinct buyers and its
attributes (num_buyers, window_start, window_end) are the distinct filer
count and min/max transaction date of an underlying group of the company's
purchase-type transactions; fewer than 3 distinct purchase filers yield no
cluster at all; and on the concrete fixtures, 3 distinct insiders buying in
a 10-day span inside a 30-day window yield exactly one cluster with
num_buyers = 3, while only 2 distinct insiders yield none. -/
theorem detectClusters_spec :
    (∀ (txs : List InsiderTransaction) (windowDays : ℕ),
      ∀ cl ∈ detectClusters txs windowDays,
        3 ≤ cl.num_buyers ∧
        ∃ g, (∀ t ∈ g, t ∈ txs ∧ t.transaction_code = "P") ∧
          cl.num_buyers = (distinctFilers g).length ∧
          cl.window_start = minDate g ∧ cl.window_end = maxDate g) ∧
    (∀ (txs : List InsiderTransaction) (windowDays : ℕ),
      ((txs.filter (fun t => t.transaction_code == "P")).map
          InsiderTransaction.insider_name).dedup.length < 3 →
      detectClusters txs windowDays = []) ∧
    (detectClusters exampleThreeBuyers 30).map
        (fun cl => (cl.num_buyers, cl.window_start, cl.window_end)) =
      [(3, 100, 110)] ∧
    detectClusters exampleTwoBuyers 30 = [] := by
  refine ⟨?_, ?_, by decide, by decide⟩
  · intro txs windowDays cl hcl
    obtain ⟨g, hgmem, rfl⟩ := List.mem_map.mp hcl
    obtain ⟨hggrp, hgbig⟩ := List.mem_filter.mp hgmem
    have hbig : 3 ≤ (distinctFilers g).length := by simpa using hgbig
    refine ⟨hbig, g, ?_, rfl, rfl, rfl⟩
    intro t ht
    have hsorted := mem_of_mem_groupWindows hggrp ht
    have hfilter := mem_sortByDate.mp hsorted
    obtain ⟨htx, hcode⟩ := List.mem_filter.mp hfilter
    exact ⟨htx, by simpa using hcode⟩
  · intro txs windowDays hsmall
    show (_ : List _).map mkCluster = []
    rw [List.map_eq_nil_iff]
    rw [List.filter_eq_nil_iff]
    intro g hg
    simp only [decide_eq_true_eq, not_le]
    calc (distinctFilers g).length
        ≤ ((txs.filter (fun t => t.transaction_code == "P")).map
            InsiderTransaction.insider_name).dedup.length := by
          refine dedup_length_mono ?_
          intro x hx
          obtain ⟨t, htg, rfl⟩ := List.mem_map.mp hx
          exact List.mem_map_of_mem InsiderTransaction.insider_name
            (mem_sortByDate.mp (mem_of_mem_groupWindows hg htg))
      _ < 3 := hsmall

/-- C5 witness: only two distinct purchase filers means no cluster, via the
general small-filer-set part of the theorem. -/
theorem detectClusters_spec_witness :
    detectClusters exampleTwoBuyers 30 = [] :=
  detectClusters_spec.2.1 exampleTwoBuyers 30 (by decide)

end CorpIntel
